import Mathlib

/-!
Verification of the Rehydration_Sigil glyph codec and container subsystem.

Shallow embedding conventions:
* A Python `str` is modelled as a `List Nat` of Unicode codepoints.
* A Python `bytes` value is modelled as a `List Nat` whose entries are `< 256`
  (the predicate `isBytes`).
* Fallible Python code (raising `ValueError` etc.) is modelled with `Except`
  or `Option`.
* `zlib.compress`/`zlib.decompress`, `zlib.crc32` and `json.dumps`/`json.loads`
  are external stdlib collaborators; they are modelled as function parameters
  constrained by hypotheses stating their documented behaviour (losslessness,
  32-bit range, parse-of-print identity).
* Text-level operations (`text.encode("utf-8")`, `data.decode("utf-8")`) are
  modelled by working over the UTF-8 byte sequences directly; since UTF-8
  encoding is injective, equality of byte sequences coincides with equality
  of the texts.
* IEEE-754 `struct.pack("<f", x)` values are modelled by their 4-byte
  encodings.
-/

namespace GlyphMatics

/-- The canonical 111-glyph alphabet `GLYPH_ALPHABET` of
`GlyphMatics_Equations.py`, as Unicode codepoints, in source order. -/
def GLYPH_ALPHABET : List Nat :=
  [10038, 10039, 10040, 10041, 10042, 10043, 10044, 10045, 10046, 10047,
   10048, 10049, 10050, 10051, 10052, 10053, 10054, 10055, 10056, 10057,
   10058, 10059, 10070, 10072, 10073, 10074, 10075, 10076, 10077, 10078,
   10081, 10082, 10083, 10084, 10085, 10086, 10087, 10209, 10210, 10211,
   10212, 10213, 10214, 10215, 10216, 10217, 10218, 10219, 10220, 10221,
   10222, 10223, 10696, 10697, 10698, 10699, 10700, 10701, 10702, 10703,
   11026, 11027, 11028, 11029, 11030, 11031, 11032, 11033, 11034, 11035,
   11036, 11037, 11038, 11039, 9733, 9734, 10022, 10023, 10025, 10026,
   10027, 10028, 10029, 10030, 10031, 10032, 9728, 9729, 9730, 9731,
   9732, 9735, 9736, 9737, 9738, 9739, 9740, 9741, 9751, 9750,
   9824, 9827, 9829, 9830, 9828, 9831, 9825, 9826, 9879, 8847,
   8848]

def ALPHABET_SIZE : Nat := GLYPH_ALPHABET.length

/-- `GLYPH_TO_INDEX` lookup.  The Python dict maps each glyph to its position
(unique: the alphabet is duplicate-free, see `alphabet_nodup`); `indexOf`
returns `length` on a missing key, corresponding to the Python `KeyError`,
which is unreachable at every call site (they look up normalized characters
only). -/
def glyphToIndex (c : Nat) : Nat := GLYPH_ALPHABET.indexOf c

/-- `INDEX_TO_GLYPH` lookup; all call sites use indices `< 111`, where the
default is unreachable. -/
def indexToGlyph (i : Nat) : Nat := GLYPH_ALPHABET.getD i 0

/-- `normalize_glyphstring`: keep only characters of the alphabet. -/
def normalize_glyphstring (s : List Nat) : List Nat :=
  s.filter (fun c => c ∈ GLYPH_ALPHABET)

/-- `glen`: glyph length after normalization. -/
def glen (s : List Nat) : Nat := (normalize_glyphstring s).length

/-- `gcat`: concatenation of the normalizations. -/
def gcat (a b : List Nat) : List Nat :=
  normalize_glyphstring a ++ normalize_glyphstring b

/-- `_glyph_add_idx`: modular addition of indices. -/
def _glyph_add_idx (i j : Nat) : Nat := (i + j) % ALPHABET_SIZE

/-- `_glyph_sub_idx`: Python `(i - j) % 111` over signed integers, which is
always the nonnegative representative. -/
def _glyph_sub_idx (i j : Nat) : Nat :=
  (((i : Int) - (j : Int)) % (ALPHABET_SIZE : Int)).toNat

/-- `gadd`: pointwise modular addition with cyclic broadcasting of the
shorter normalized operand; if one operand normalizes to empty the other
is returned (Python `A or B`). -/
def gadd (a b : List Nat) : List Nat :=
  let A := normalize_glyphstring a
  let B := normalize_glyphstring b
  if A = [] then B
  else if B = [] then A
  else
    (List.range (max A.length B.length)).map (fun k =>
      indexToGlyph (_glyph_add_idx (glyphToIndex (A.getD (k % A.length) 0))
                                   (glyphToIndex (B.getD (k % B.length) 0))))

/-- `gsub`: pointwise modular subtraction with the same broadcasting; on an
empty normalized operand Python returns `A or ""`. -/
def gsub (a b : List Nat) : List Nat :=
  let A := normalize_glyphstring a
  let B := normalize_glyphstring b
  if A = [] then []
  else if B = [] then A
  else
    (List.range (max A.length B.length)).map (fun k =>
      indexToGlyph (_glyph_sub_idx (glyphToIndex (A.getD (k % A.length) 0))
                                   (glyphToIndex (B.getD (k % B.length) 0))))

/-- `ginv`: per-symbol index reflection `(111 - 1 - i) % 111`. -/
def ginv (s : List Nat) : List Nat :=
  (normalize_glyphstring s).map (fun g =>
    indexToGlyph ((ALPHABET_SIZE - 1 - glyphToIndex g) % ALPHABET_SIZE))

/-- Error kinds raised (as `ValueError`) by the codec functions. -/
inductive CodecError where
  | oddLength
  | invalidPair
  | indexOutOfRange
  | unknownSymbol
  | alphabetTooSmall
  | byteNotEncodable
  deriving DecidableEq, Repr

/-- A Python `bytes` value: every entry is a byte. -/
def isBytes (l : List Nat) : Prop := ∀ b ∈ l, b < 256

instance : DecidablePred isBytes := fun l =>
  inferInstanceAs (Decidable (∀ b ∈ l, b < 256))

/-- `_pair_to_byte`: range-check both indices, then reject codes `≥ 256`. -/
def _pair_to_byte (hi lo : Nat) : Except CodecError Nat :=
  if hi < ALPHABET_SIZE ∧ lo < ALPHABET_SIZE then
    if hi * ALPHABET_SIZE + lo ≥ 256 then .error .invalidPair
    else .ok (hi * ALPHABET_SIZE + lo)
  else .error .indexOutOfRange

/-- `encode_bytes_to_glyphs`: two glyphs per byte, `hi = b / 111`,
`lo = b % 111` (the Python range check on `b` is vacuous for `bytes` input,
i.e. under `isBytes`). -/
def encode_bytes_to_glyphs : List Nat → List Nat
  | [] => []
  | b :: rest =>
    indexToGlyph (b / ALPHABET_SIZE) :: indexToGlyph (b % ALPHABET_SIZE) ::
      encode_bytes_to_glyphs rest

/-- Pair loop of `decode_glyphs_to_bytes`, after normalization and the
parity check (the one-element case is unreachable there). -/
def decodeLoop : List Nat → Except CodecError (List Nat)
  | [] => .ok []
  | [_] => .error .oddLength
  | ghi :: glo :: rest =>
    match _pair_to_byte (glyphToIndex ghi) (glyphToIndex glo) with
    | .error e => .error e
    | .ok b => (decodeLoop rest).map (fun r => b :: r)

/-- `decode_glyphs_to_bytes`: normalize, require even length, decode pairs. -/
def decode_glyphs_to_bytes (s : List Nat) : Except CodecError (List Nat) :=
  let sn := normalize_glyphstring s
  if sn.length % 2 ≠ 0 then .error .oddLength
  else decodeLoop sn

/-- `encode_text_to_glyphs` on the UTF-8 byte sequence of the text. -/
def encode_text_to_glyphs (textB : List Nat) : List Nat :=
  encode_bytes_to_glyphs textB

/-- `GlyphFingerprint`.  `entropy_est` (a Python float) is represented as a
rational. -/
structure GlyphFingerprint where
  glyph_crc : Nat
  byte_crc : Nat
  length : Nat
  entropy_est : ℚ
  deriving DecidableEq, Repr

/-- `glyph_crc32`, parameterized by `crcS`, which models
`zlib.crc32(· .encode("utf-8")) & 0xFFFFFFFF` on codepoint sequences. -/
def glyph_crc32 (crcS : List Nat → Nat) (s : List Nat) : Nat :=
  crcS (normalize_glyphstring s)

/-- `fingerprint_glyphstring`, parameterized by the external `zlib.crc32`
(over glyph text `crcS`, over decoded bytes `crcB`) and by
`_entropy_estimate` (`ent`, a pure float computation).  The
`try/except` of the source is the `match` on the decode result. -/
def fingerprint_glyphstring (crcS crcB : List Nat → Nat) (ent : List Nat → ℚ)
    (s : List Nat) : GlyphFingerprint :=
  let s_norm := normalize_glyphstring s
  let crc_g := glyph_crc32 crcS s_norm
  match decode_glyphs_to_bytes s_norm with
  | .ok data =>
    { glyph_crc := crc_g, byte_crc := crcB data, length := s_norm.length,
      entropy_est := ent data }
  | .error _ =>
    { glyph_crc := crc_g, byte_crc := 0, length := s_norm.length,
      entropy_est := 0 }

/-- `glyph_inner_dialog` on UTF-8 byte sequences.  A `none` key is Python
`None`; `some []` is the empty string; both are falsy and skip mixing. -/
def glyph_inner_dialog (textB : List Nat) (channel_key : Option (List Nat)) :
    List Nat :=
  let base := encode_text_to_glyphs textB
  match channel_key with
  | none => base
  | some k => if k = [] then base else gadd base (encode_text_to_glyphs k)

/-- `glyph_inner_dialog_decode`, returning the decoded UTF-8 byte sequence
(the final `bytes.decode("utf-8")` of the source is the injective UTF-8
layer modelled away, see the file header). -/
def glyph_inner_dialog_decode (glyphs : List Nat)
    (channel_key : Option (List Nat)) : Except CodecError (List Nat) :=
  let s_norm := normalize_glyphstring glyphs
  match channel_key with
  | none => decode_glyphs_to_bytes s_norm
  | some k =>
    if k = [] then decode_glyphs_to_bytes s_norm
    else decode_glyphs_to_bytes (gsub s_norm (encode_text_to_glyphs k))

end GlyphMatics

namespace GlyphNotes

open GlyphMatics (CodecError isBytes)

/-- Encoding loop of `GlyphEncoder.bytes_to_glyphs`: `hi = b // base`,
`lo = b % base`, with the defensive `hi >= base` rejection. -/
def encGo (alpha : List Nat) : List Nat → Except CodecError (List Nat)
  | [] => .ok []
  | b :: rest =>
    if b / alpha.length ≥ alpha.length then .error .byteNotEncodable
    else (encGo alpha rest).map (fun r =>
      alpha.getD (b / alpha.length) 0 :: alpha.getD (b % alpha.length) 0 :: r)

/-- `GlyphEncoder.bytes_to_glyphs`: requires `base^2 >= 256`, then two
glyphs per byte.  (`GlyphEncoder.__post_init__` additionally requires
`len(alphabet) >= 16` at construction; theorems carry that hypothesis.) -/
def bytes_to_glyphs (alpha : List Nat) (data : List Nat) :
    Except CodecError (List Nat) :=
  if alpha.length * alpha.length < 256 then .error .alphabetTooSmall
  else encGo alpha data

/-- Pair loop of `GlyphEncoder.glyphs_to_bytes`: unknown-symbol check first,
then the `value > 255` range check.  The singleton case is unreachable under
the even-length guard (Python would raise `IndexError` there). -/
def decGo (alpha : List Nat) : List Nat → Except CodecError (List Nat)
  | [] => .ok []
  | [_] => .error .oddLength
  | g1 :: g2 :: rest =>
    if g1 ∈ alpha ∧ g2 ∈ alpha then
      if alpha.indexOf g1 * alpha.length + alpha.indexOf g2 > 255 then
        .error .invalidPair
      else (decGo alpha rest).map (fun r =>
        (alpha.indexOf g1 * alpha.length + alpha.indexOf g2) :: r)
    else .error .unknownSymbol

/-- `GlyphEncoder.glyphs_to_bytes`: even-length check, then pair decoding. -/
def glyphs_to_bytes (alpha : List Nat) (glyphs : List Nat) :
    Except CodecError (List Nat) :=
  if glyphs.length % 2 ≠ 0 then .error .oddLength
  else decGo alpha glyphs

/-- Pure view of the encoding loop on byte input (proof-layer helper). -/
def encList (alpha : List Nat) : List Nat → List Nat
  | [] => []
  | b :: rest =>
    alpha.getD (b / alpha.length) 0 :: alpha.getD (b % alpha.length) 0 ::
      encList alpha rest

end GlyphNotes

namespace Encap

/-- `u8`: one byte, masked. -/
def u8 (x : Nat) : List Nat := [x % 256]

/-- `u16`: two bytes, little-endian, masked. -/
def u16 (x : Nat) : List Nat := [x % 2 ^ 16 % 256, x % 2 ^ 16 / 256]

/-- `u32`: four bytes, little-endian, masked. -/
def u32 (x : Nat) : List Nat :=
  [x % 2 ^ 32 % 256, x % 2 ^ 32 / 256 % 256, x % 2 ^ 32 / 2 ^ 16 % 256,
   x % 2 ^ 32 / 2 ^ 24]

/-- `int.from_bytes(l, "little")`. -/
def fromLE (l : List Nat) : Nat := l.foldr (fun b acc => b + 256 * acc) 0

/-- `MAGIC = b"GLYPHLLM"`. -/
def MAGIC : List Nat := [71, 76, 89, 80, 72, 76, 76, 77]

def BRAILLE_BASE : Nat := 0x2800

/-- `to_braille`: one armor codepoint `BRAILLE_BASE + (b & 0xFF)` per byte. -/
def to_braille (b : List Nat) : List Nat :=
  b.map (fun x => BRAILLE_BASE + x % 256)

/-- `from_braille`: keep characters in `[0x2800, 0x28FF]`, map back to
bytes, silently skipping everything else. -/
def from_braille (text : List Nat) : List Nat :=
  (text.filter (fun ch => BRAILLE_BASE ≤ ch ∧ ch ≤ 0x28FF)).map
    (fun ch => (ch - BRAILLE_BASE) % 256)

/-- A v2 leaf block.  `name` holds the ASCII bytes of `blk["name"]`;
`vminB`/`vmaxB` are the 4-byte `struct.pack("<f", ·)` encodings of
`vmin`/`vmax`. -/
structure Block where
  name : List Nat
  ndim : Nat
  vminB : List Nat
  vmaxB : List Nat
  payload : List Nat

/-- Serialization of one block inside `encode_v2_leaf`:
`u8(1) + u8(len(nm)) + nm + u16(ndim) + f32(vmin) + f32(vmax)
+ u32(len(payload)) + payload` with `nm = name[:255]`. -/
def encBlock (blk : Block) : List Nat :=
  u8 1 ++ u8 (blk.name.take 255).length ++ blk.name.take 255 ++ u16 blk.ndim
    ++ blk.vminB ++ blk.vmaxB ++ u32 blk.payload.length ++ blk.payload

/-- `encode_v2_leaf`, with `zlib.compress(·, 9)` and
`binascii.crc32 & 0xFFFFFFFF` passed as the external collaborators
`compress` and `crc`, and `json.dumps(v2_meta, ...)` abstracted into the
already-serialized `meta_bytes`. -/
def encode_v2_leaf (compress : List Nat → List Nat) (crc : List Nat → Nat)
    (meta_bytes : List Nat) (blocks : List Block) : List Nat :=
  let raw := MAGIC ++ u8 2 ++ u16 meta_bytes.length ++ meta_bytes
    ++ (blocks.map encBlock).flatten ++ u8 0
  let comp := compress raw
  comp ++ u32 (crc comp)

/-- `encode_v3_page`, same conventions; `meta_bytes` stands for the
serialized page metadata (title etc.). -/
def encode_v3_page (compress : List Nat → List Nat) (crc : List Nat → Nat)
    (meta_bytes : List Nat) (v2_framed : List Nat) : List Nat :=
  let raw := MAGIC ++ u8 3 ++ u16 meta_bytes.length ++ meta_bytes
    ++ u32 v2_framed.length ++ v2_framed
  let comp := compress raw
  comp ++ u32 (crc comp)

/-- The ASCII bytes of `"superparagraph"`. -/
def nameSP : List Nat :=
  [115, 117, 112, 101, 114, 112, 97, 114, 97, 103, 114, 97, 112, 104]

/-- `struct.pack("<f", 0.0)`. -/
def f32zero : List Nat := [0, 0, 0, 0]

/-- Codepoints of the line opening `"⧈ΩϞ⧉ GNGM:" + title + " •"`. -/
def linePre (title : List Nat) : List Nat :=
  [10696, 937, 990, 10697, 32, 71, 78, 71, 77, 58] ++ title ++ [32, 8226]

/-- Codepoints of the line closing `"• ⧉ϞΩ⧈"`. -/
def lineSuf : List Nat := [8226, 32, 10697, 990, 937, 10696]

/-- `encode_superparagraph` over an abstract record type `σ`:
`spSer` models `json.dumps(sp, ...)`, `metaSer2 sp` the serialized
`v2_meta` built from `sp`, and `metaSer3 title` the serialized page
metadata built from the title. -/
def encode_superparagraph {σ : Type} (compress : List Nat → List Nat)
    (crc : List Nat → Nat) (spSer : σ → List Nat) (metaSer2 : σ → List Nat)
    (metaSer3 : List Nat → List Nat) (sp : σ) (title : List Nat) : List Nat :=
  let payload := spSer sp
  let blocks : List Block := [⟨nameSP, 0, f32zero, f32zero, payload⟩]
  let v2_framed := encode_v2_leaf compress crc (metaSer2 sp) blocks
  let v3_framed := encode_v3_page compress crc (metaSer3 title) v2_framed
  linePre title ++ to_braille v3_framed ++ lineSuf

/-- The block-scan loop of `decode_superparagraph`.  Slices
(`v2_raw[a:b]`) are tolerant reads modelled with `take`/`drop`; direct
indexing (`v2_raw[off2]`) and `struct.unpack_from` raise on a short
buffer, modelled as `none`.  The name is decoded with
`.decode("ascii", "ignore")`, i.e. bytes `≥ 128` are dropped; `ndim`,
`vmin`, `vmax` are read (advancing the offset) but not stored. -/
def scanBlocks : List Nat → List (List Nat × List Nat) →
    Option (List (List Nat × List Nat))
  | [], acc => some acc.reverse
  | btype :: rest, acc =>
    if btype = 0 then some acc.reverse
    else
      match rest with
      | [] => none
      | nlen :: r2 =>
        let name := r2.take nlen
        let r3 := r2.drop nlen
        let r4 := r3.drop 2
        if r4.length < 4 then none
        else
          let r5 := r4.drop 4
          if r5.length < 4 then none
          else
            let r6 := r5.drop 4
            let plen := fromLE (r6.take 4)
            let r7 := r6.drop 4
            let payload := r7.take plen
            scanBlocks (r7.drop plen) ((name.filter (fun c => c < 128), payload) :: acc)
  termination_by l _ => l.length
  decreasing_by
    simp only [List.length_drop, List.length_cons]
    omega

/-- `decode_superparagraph`: armor strip, outer CRC + decompress + header
checks, slice the inner envelope, repeat, scan the blocks, pick the
`"superparagraph"` block and parse its JSON payload (`spParse` models
`json.loads`). All raised errors (`ValueError`, `IndexError`,
`StopIteration`, `zlib.error`) are collapsed to `none`. -/
def decode_superparagraph {σ : Type} (decompress : List Nat → Option (List Nat))
    (crc : List Nat → Nat) (spParse : List Nat → Option σ) (line : List Nat) :
    Option σ :=
  let b := from_braille line
  let comp3 := b.take (b.length - 4)
  let crc3 := b.drop (b.length - 4)
  if crc comp3 ≠ fromLE crc3 then none
  else
    match decompress comp3 with
    | none => none
    | some v3_raw =>
      if v3_raw.take 8 ≠ MAGIC then none
      else
        match v3_raw.get? 8 with
        | none => none
        | some v =>
          if v ≠ 3 then none
          else
            let mlen := fromLE ((v3_raw.drop 9).take 2)
            let off := 9 + 2 + mlen
            let inner_len := fromLE ((v3_raw.drop off).take 4)
            let framed_v2 := (v3_raw.drop (off + 4)).take inner_len
            let comp2 := framed_v2.take (framed_v2.length - 4)
            let crc2 := framed_v2.drop (framed_v2.length - 4)
            if crc comp2 ≠ fromLE crc2 then none
            else
              match decompress comp2 with
              | none => none
              | some v2_raw =>
                if v2_raw.take 8 ≠ MAGIC then none
                else
                  match v2_raw.get? 8 with
                  | none => none
                  | some w =>
                    if w ≠ 2 then none
                    else
                      let mlen2 := fromLE ((v2_raw.drop 9).take 2)
                      match scanBlocks (v2_raw.drop (9 + 2 + mlen2)) [] with
                      | none => none
                      | some blocks =>
                        match blocks.find? (fun blk => blk.1 == nameSP) with
                        | none => none
                        | some blk => spParse blk.2

/-- Concrete instance data exercising the container pipeline with the
identity compressor, zero CRC, payload bytes `[120]` (`"x"`) and empty
metadata: the inner leaf frame raw bytes... -/
def R2W : List Nat :=
  MAGIC ++ (2 :: (u16 ([] : List Nat).length ++ ([] ++
    (encBlock ⟨nameSP, 0, f32zero, f32zero, [120]⟩ ++ [0]))))

/-- ...its envelope under the identity compressor and zero CRC... -/
def V2W : List Nat := R2W ++ u32 0

/-- ...and the corresponding page frame raw bytes. -/
def R3W : List Nat :=
  MAGIC ++ (3 :: (u16 ([] : List Nat).length ++ ([] ++
    (u32 V2W.length ++ V2W))))

/-- Well-formedness of a block for serialization: the two packed floats
are 4 bytes each and the payload length fits the `u32` prefix. -/
def wfBlock (blk : Block) : Prop :=
  blk.vminB.length = 4 ∧ blk.vmaxB.length = 4 ∧ blk.payload.length < 2 ^ 32

instance : DecidablePred wfBlock := fun blk =>
  inferInstanceAs (Decidable (_ ∧ _ ∧ _))

/-- The (name, payload) pair the decoder's block scan extracts from a
serialized block: the truncated name with non-ASCII bytes dropped, and the
payload. -/
def extractBlock (blk : Block) : List Nat × List Nat :=
  ((blk.name.take 255).filter (fun c => c < 128), blk.payload)

end Encap

namespace Sigil

/-- Python `str.isspace()` codepoints in the range used for `str.strip()`. -/
def isPySpace (c : Nat) : Bool :=
  c ∈ [9, 10, 11, 12, 13, 28, 29, 30, 31, 32, 133, 160, 5760,
       8192, 8193, 8194, 8195, 8196, 8197, 8198, 8199, 8200, 8201, 8202,
       8232, 8233, 8239, 8287, 12288]

/-- Python `str.strip()`. -/
def pyStrip (s : List Nat) : List Nat :=
  ((s.dropWhile isPySpace).reverse.dropWhile isPySpace).reverse

/-- One raw lexicon entry (a JSON object): `none` models a missing key,
for which `e.get(key, default)` substitutes the default. -/
structure RawEntry where
  word : List Nat
  definition : List Nat
  glyphs : List Nat
  glyph_crc : Option Nat
  byte_crc : Option Nat
  length : Option Nat
  entropy_est : Option ℚ

/-- `SigilEntry`.  `sigil` is the codepoint of the single sigil character
(`chr(codepoint_int)`); `codepoint` is the numeric value rendered by the
source as the string `f"U+{codepoint_int:04X}"`. -/
structure SigilEntry where
  word : List Nat
  definition : List Nat
  glyphs : List Nat
  glyph_crc : Nat
  byte_crc : Nat
  glyph_length : Nat
  entropy_est : ℚ
  sigil : Nat
  codepoint : Nat
  index : Nat
  deriving DecidableEq, Repr

/-- `SigilLexicon` (the `source_lexicon` string field is I/O glue and is
kept empty here). -/
structure SigilLexicon where
  base_codepoint : Nat
  entries : List SigilEntry

inductive SigilError where
  | noEntries
  | capacity
  | collision
  deriving DecidableEq, Repr

/-- Whether an entry is accepted by `assign_sigils` (not skipped as
malformed): nonempty stripped word and nonempty glyphs. -/
def acceptedEntry (e : RawEntry) : Bool :=
  ¬(pyStrip e.word = [] ∨ e.glyphs = [])

/-- The `SigilEntry` built for an accepted raw entry at original index
`idx`; `crcT` models `_crc32` (CRC-32 of the UTF-8 encoding). -/
def mkSigilEntry (crcT : List Nat → Nat) (base idx : Nat) (e : RawEntry) :
    SigilEntry :=
  { word := pyStrip e.word
    definition := pyStrip e.definition
    glyphs := e.glyphs
    glyph_crc := e.glyph_crc.getD (crcT e.glyphs)
    byte_crc := e.byte_crc.getD (crcT e.glyphs)
    glyph_length := e.length.getD e.glyphs.length
    entropy_est := e.entropy_est.getD 0
    sigil := base + idx
    codepoint := base + idx
    index := idx }

/-- The `for idx, e in enumerate(raw_entries)` loop of `assign_sigils`,
with `used` the key set of `used_sigils`. -/
def assignLoop (crcT : List Nat → Nat) (base : Nat) :
    List (Nat × RawEntry) → List Nat → Except SigilError (List SigilEntry)
  | [], _ => .ok []
  | (idx, e) :: rest, used =>
    if acceptedEntry e then
      if (base + idx) ∈ used then .error .collision
      else (assignLoop crcT base rest ((base + idx) :: used)).map
        (fun tail => mkSigilEntry crcT base idx e :: tail)
    else assignLoop crcT base rest used

/-- `assign_sigils`: reject an empty lexicon, reject over-capacity, then
run the assignment loop over the enumerated entries. -/
def assign_sigils (crcT : List Nat → Nat) (raw_entries : List RawEntry)
    (base_codepoint : Nat) (max_sigils : Nat) : Except SigilError SigilLexicon :=
  let n := raw_entries.length
  if n = 0 then .error .noEntries
  else if n > max_sigils then .error .capacity
  else (assignLoop crcT base_codepoint raw_entries.enum []).map
    (fun es => { base_codepoint := base_codepoint, entries := es })

/-- The sigil half of `_build_index_maps` plus the `by_sigil.get` lookup of
`cmd_decode`: first-match search. -/
def lookup_by_sigil (lex : SigilLexicon) (s : Nat) : Option SigilEntry :=
  lex.entries.find? (fun e => e.sigil == s)

/-- Pure view of the assignment loop (proof-layer helper): the entries
produced from the enumerated list, skipping unaccepted ones. -/
def sigilize (crcT : List Nat → Nat) (base : Nat) :
    List (Nat × RawEntry) → List SigilEntry
  | [] => []
  | (idx, e) :: rest =>
    if acceptedEntry e then mkSigilEntry crcT base idx e :: sigilize crcT base rest
    else sigilize crcT base rest

end Sigil

namespace GlyphMatics

theorem alphabet_size_eq : ALPHABET_SIZE = 111 := rfl

theorem alphabet_nodup : GLYPH_ALPHABET.Nodup := by decide

theorem glyphToIndex_lt {c : Nat} (h : c ∈ GLYPH_ALPHABET) :
    glyphToIndex c < ALPHABET_SIZE :=
  List.indexOf_lt_length.2 h

theorem indexToGlyph_glyphToIndex {c : Nat} (h : c ∈ GLYPH_ALPHABET) :
    indexToGlyph (glyphToIndex c) = c := by
  unfold indexToGlyph glyphToIndex
  rw [List.getD_eq_getElem _ _ (List.indexOf_lt_length.2 h)]
  exact List.getElem_indexOf (List.indexOf_lt_length.2 h)

theorem indexToGlyph_mem {i : Nat} (h : i < ALPHABET_SIZE) :
    indexToGlyph i ∈ GLYPH_ALPHABET := by
  unfold indexToGlyph
  rw [List.getD_eq_getElem _ _ h]
  exact List.getElem_mem _

theorem glyphToIndex_indexToGlyph {i : Nat} (h : i < ALPHABET_SIZE) :
    glyphToIndex (indexToGlyph i) = i := by
  unfold indexToGlyph glyphToIndex
  rw [List.getD_eq_getElem _ _ h]
  exact List.indexOf_getElem alphabet_nodup i h

theorem mem_normalize {c : Nat} {s : List Nat} (h : c ∈ normalize_glyphstring s) :
    c ∈ GLYPH_ALPHABET := by
  have := List.of_mem_filter h
  simpa using this

theorem normalize_eq_self {s : List Nat} (h : ∀ c ∈ s, c ∈ GLYPH_ALPHABET) :
    normalize_glyphstring s = s := by
  unfold normalize_glyphstring
  exact List.filter_eq_self.2 (fun c hc => by simpa using h c hc)

theorem normalize_normalize (s : List Nat) :
    normalize_glyphstring (normalize_glyphstring s) = normalize_glyphstring s :=
  normalize_eq_self (fun _ hc => mem_normalize hc)

theorem getD_map_range (f : Nat → Nat) {n i : Nat} (h : i < n) :
    ((List.range n).map f).getD i 0 = f i := by
  rw [List.getD_eq_getElem _ _ (by simpa using h)]
  simp

theorem map_getD_eq_self (l : List Nat) (d : Nat) :
    (List.range l.length).map (fun k => l.getD k d) = l := by
  apply List.ext_getElem
  · simp
  · intro i h1 h2
    simp only [List.getElem_map, List.getElem_range]
    exact List.getD_eq_getElem _ _ h2

theorem encode_bytes_length (data : List Nat) :
    (encode_bytes_to_glyphs data).length = 2 * data.length := by
  induction data with
  | nil => rfl
  | cons b rest ih => simp [encode_bytes_to_glyphs, ih]; omega

theorem mem_encode_bytes {c : Nat} {data : List Nat} (hB : isBytes data)
    (h : c ∈ encode_bytes_to_glyphs data) : c ∈ GLYPH_ALPHABET := by
  induction data with
  | nil => simp [encode_bytes_to_glyphs] at h
  | cons b rest ih =>
    have hb : b < 256 := hB b (by simp)
    have hrest : isBytes rest := fun x hx => hB x (by simp [hx])
    simp only [encode_bytes_to_glyphs, List.mem_cons] at h
    rcases h with h | h | h
    · subst h
      exact indexToGlyph_mem (by rw [alphabet_size_eq]; omega)
    · subst h
      exact indexToGlyph_mem (by rw [alphabet_size_eq]; exact Nat.mod_lt _ (by omega))
    · exact ih hrest h

theorem normalize_encode_bytes {data : List Nat} (hB : isBytes data) :
    normalize_glyphstring (encode_bytes_to_glyphs data) = encode_bytes_to_glyphs data :=
  normalize_eq_self (fun _ hc => mem_encode_bytes hB hc)

theorem decodeLoop_encode {data : List Nat} (hB : isBytes data) :
    decodeLoop (encode_bytes_to_glyphs data) = .ok data := by
  induction data with
  | nil => rfl
  | cons b rest ih =>
    have hb : b < 256 := hB b (by simp)
    have hrest : isBytes rest := fun x hx => hB x (by simp [hx])
    have hdiv : b / ALPHABET_SIZE < ALPHABET_SIZE := by rw [alphabet_size_eq]; omega
    have hmod : b % ALPHABET_SIZE < ALPHABET_SIZE := by
      rw [alphabet_size_eq]; exact Nat.mod_lt _ (by omega)
    have hrec : b / ALPHABET_SIZE * ALPHABET_SIZE + b % ALPHABET_SIZE = b := by
      rw [Nat.mul_comm]; exact Nat.div_add_mod b ALPHABET_SIZE
    simp only [encode_bytes_to_glyphs, decodeLoop,
      glyphToIndex_indexToGlyph hdiv, glyphToIndex_indexToGlyph hmod]
    unfold _pair_to_byte
    rw [if_pos ⟨hdiv, hmod⟩, if_neg (by omega), ih hrest]
    rw [hrec]
    rfl

theorem decode_encode_bytes {data : List Nat} (hB : isBytes data) :
    decode_glyphs_to_bytes (encode_bytes_to_glyphs data) = .ok data := by
  unfold decode_glyphs_to_bytes
  simp only [normalize_encode_bytes hB, encode_bytes_length]
  simp only [Nat.mul_mod_right]
  simpa using decodeLoop_encode hB

theorem _glyph_add_idx_lt (i j : Nat) : _glyph_add_idx i j < ALPHABET_SIZE := by
  simp only [_glyph_add_idx, alphabet_size_eq]
  exact Nat.mod_lt _ (by omega)

theorem _glyph_sub_idx_lt (i j : Nat) : _glyph_sub_idx i j < ALPHABET_SIZE := by
  simp only [_glyph_sub_idx, alphabet_size_eq]
  omega

theorem _glyph_sub_add_cancel {i : Nat} (j : Nat) (hi : i < ALPHABET_SIZE) :
    _glyph_sub_idx (_glyph_add_idx i j) j = i := by
  simp only [_glyph_sub_idx, _glyph_add_idx, alphabet_size_eq] at *
  omega

theorem mem_gadd {c : Nat} {a b : List Nat} (h : c ∈ gadd a b) :
    c ∈ GLYPH_ALPHABET := by
  unfold gadd at h
  by_cases hA : normalize_glyphstring a = [] <;>
    by_cases hB : normalize_glyphstring b = [] <;>
    simp only [hA, hB, if_pos, if_neg, if_true, if_false, reduceIte] at h
  · simp at h
  · exact mem_normalize h
  · exact mem_normalize h
  · obtain ⟨k, _, rfl⟩ := List.mem_map.1 h
    exact indexToGlyph_mem (_glyph_add_idx_lt _ _)

theorem mem_gsub {c : Nat} {a b : List Nat} (h : c ∈ gsub a b) :
    c ∈ GLYPH_ALPHABET := by
  unfold gsub at h
  by_cases hA : normalize_glyphstring a = [] <;>
    by_cases hB : normalize_glyphstring b = [] <;>
    simp only [hA, hB, if_pos, if_neg, if_true, if_false, reduceIte] at h
  · simp at h
  · simp at h
  · exact mem_normalize h
  · obtain ⟨k, _, rfl⟩ := List.mem_map.1 h
    exact indexToGlyph_mem (_glyph_sub_idx_lt _ _)

theorem mem_ginv {c : Nat} {s : List Nat} (h : c ∈ ginv s) :
    c ∈ GLYPH_ALPHABET := by
  unfold ginv at h
  obtain ⟨g, _, rfl⟩ := List.mem_map.1 h
  refine indexToGlyph_mem ?_
  rw [alphabet_size_eq]
  exact Nat.mod_lt _ (by omega)

theorem mem_gcat {c : Nat} {a b : List Nat} (h : c ∈ gcat a b) :
    c ∈ GLYPH_ALPHABET := by
  unfold gcat at h
  rcases List.mem_append.1 h with h | h <;> exact mem_normalize h

theorem gadd_of_pure {A B : List Nat} (hA : ∀ c ∈ A, c ∈ GLYPH_ALPHABET)
    (hB : ∀ c ∈ B, c ∈ GLYPH_ALPHABET) (hA0 : A ≠ []) (hB0 : B ≠ []) :
    gadd A B = (List.range (max A.length B.length)).map (fun k =>
      indexToGlyph (_glyph_add_idx (glyphToIndex (A.getD (k % A.length) 0))
                                   (glyphToIndex (B.getD (k % B.length) 0)))) := by
  simp only [gadd, normalize_eq_self hA, normalize_eq_self hB,
    if_neg hA0, if_neg hB0]

theorem gadd_length_pure {A B : List Nat} (hA : ∀ c ∈ A, c ∈ GLYPH_ALPHABET)
    (hB : ∀ c ∈ B, c ∈ GLYPH_ALPHABET) (hA0 : A ≠ []) (hB0 : B ≠ []) :
    (gadd A B).length = max A.length B.length := by
  rw [gadd_of_pure hA hB hA0 hB0]
  simp

theorem gsub_gadd_pure {A B : List Nat} (hA : ∀ c ∈ A, c ∈ GLYPH_ALPHABET)
    (hB : ∀ c ∈ B, c ∈ GLYPH_ALPHABET) (hA0 : A ≠ []) (hB0 : B ≠ [])
    (hlen : B.length ≤ A.length) : gsub (gadd A B) B = A := by
  have hG := gadd_of_pure hA hB hA0 hB0
  have hmax : max A.length B.length = A.length := Nat.max_eq_left hlen
  have hGmem : ∀ c ∈ gadd A B, c ∈ GLYPH_ALPHABET := fun _ hc => mem_gadd hc
  have hGlen : (gadd A B).length = A.length := by
    rw [gadd_length_pure hA hB hA0 hB0, hmax]
  have hApos : 0 < A.length := List.length_pos.2 hA0
  have hBpos : 0 < B.length := List.length_pos.2 hB0
  have hG0 : gadd A B ≠ [] := by
    intro h
    rw [h] at hGlen
    simp at hGlen
    omega
  unfold gsub
  simp only [normalize_eq_self hGmem, normalize_eq_self hB, if_neg hG0, if_neg hB0]
  rw [hGlen, hmax]
  apply List.ext_getElem
  · simp
  · intro i h1 h2
    simp only [List.length_map, List.length_range] at h1
    simp only [List.getElem_map, List.getElem_range]
    have hiA : i % A.length = i := Nat.mod_eq_of_lt h1
    have hmemA : A.getD i 0 ∈ A := by
      rw [List.getD_eq_getElem _ _ h1]; exact List.getElem_mem _
    have hidxA : glyphToIndex (A.getD i 0) < ALPHABET_SIZE :=
      glyphToIndex_lt (hA _ hmemA)
    have hGget : (gadd A B).getD i 0 =
        indexToGlyph (_glyph_add_idx (glyphToIndex (A.getD i 0))
          (glyphToIndex (B.getD (i % B.length) 0))) := by
      rw [hG, hmax, getD_map_range _ h1, hiA]
    rw [hiA, hGget, glyphToIndex_indexToGlyph (_glyph_add_idx_lt _ _),
      _glyph_sub_add_cancel _ hidxA, indexToGlyph_glyphToIndex (hA _ hmemA),
      List.getD_eq_getElem _ _ h1]

end GlyphMatics

namespace GlyphNotes

open GlyphMatics (CodecError isBytes)

theorem encList_length (alpha data : List Nat) :
    (encList alpha data).length = 2 * data.length := by
  induction data with
  | nil => rfl
  | cons b rest ih => simp [encList, ih]; omega

theorem encGo_eq_ok {alpha data : List Nat} (h16 : 16 ≤ alpha.length)
    (hB : isBytes data) : encGo alpha data = .ok (encList alpha data) := by
  induction data with
  | nil => rfl
  | cons b rest ih =>
    have hb : b < 256 := hB b (by simp)
    have hrest : isBytes rest := fun x hx => hB x (by simp [hx])
    have hdiv : b / alpha.length < alpha.length := by
      rw [Nat.div_lt_iff_lt_mul (by omega)]
      calc b < 256 := hb
        _ ≤ 16 * 16 := by omega
        _ ≤ alpha.length * alpha.length := Nat.mul_le_mul h16 h16
    simp only [encGo, encList, Nat.not_le.2 hdiv, if_neg (Nat.not_le.2 hdiv), ih hrest]
    rfl

theorem decGo_encList {alpha data : List Nat} (hnd : alpha.Nodup)
    (h16 : 16 ≤ alpha.length) (hB : isBytes data) :
    decGo alpha (encList alpha data) = .ok data := by
  induction data with
  | nil => rfl
  | cons b rest ih =>
    have hb : b < 256 := hB b (by simp)
    have hrest : isBytes rest := fun x hx => hB x (by simp [hx])
    have hdiv : b / alpha.length < alpha.length := by
      rw [Nat.div_lt_iff_lt_mul (by omega)]
      calc b < 256 := hb
        _ ≤ 16 * 16 := by omega
        _ ≤ alpha.length * alpha.length := Nat.mul_le_mul h16 h16
    have hmod : b % alpha.length < alpha.length := Nat.mod_lt _ (by omega)
    have hm1 : alpha.getD (b / alpha.length) 0 ∈ alpha := by
      rw [List.getD_eq_getElem _ _ hdiv]; exact List.getElem_mem _
    have hm2 : alpha.getD (b % alpha.length) 0 ∈ alpha := by
      rw [List.getD_eq_getElem _ _ hmod]; exact List.getElem_mem _
    have hi1 : alpha.indexOf (alpha.getD (b / alpha.length) 0) = b / alpha.length := by
      rw [List.getD_eq_getElem _ _ hdiv]; exact List.indexOf_getElem hnd _ hdiv
    have hi2 : alpha.indexOf (alpha.getD (b % alpha.length) 0) = b % alpha.length := by
      rw [List.getD_eq_getElem _ _ hmod]; exact List.indexOf_getElem hnd _ hmod
    have hval : b / alpha.length * alpha.length + b % alpha.length = b := by
      rw [Nat.mul_comm]; exact Nat.div_add_mod b alpha.length
    simp only [encList, decGo, if_pos (And.intro hm1 hm2), hi1, hi2, hval]
    rw [if_neg (by omega), ih hrest]
    rfl

theorem bytes_round_trip {alpha data : List Nat} (hnd : alpha.Nodup)
    (h16 : 16 ≤ alpha.length) (hB : isBytes data) :
    bytes_to_glyphs alpha data = .ok (encList alpha data)
    ∧ glyphs_to_bytes alpha (encList alpha data) = .ok data := by
  have h256 : ¬ alpha.length * alpha.length < 256 := by
    have := Nat.mul_le_mul h16 h16
    omega
  refine ⟨?_, ?_⟩
  · simp only [bytes_to_glyphs, if_neg h256]
    exact encGo_eq_ok h16 hB
  · have heven : (encList alpha data).length % 2 = 0 := by
      rw [encList_length]
      simp
    simp only [glyphs_to_bytes, heven]
    simpa using decGo_encList hnd h16 hB

theorem decGo_error_of_not_mem (alpha : List Nat) :
    ∀ (n : Nat) (g : List Nat), g.length ≤ n → ∀ c ∈ g, c ∉ alpha →
      ∃ e, decGo alpha g = .error e := by
  intro n
  induction n with
  | zero =>
    intro g hg c hc _
    rw [List.length_eq_zero.1 (Nat.le_zero.1 hg)] at hc
    simp at hc
  | succ n ih =>
    intro g hg c hc hnc
    match g, hc with
    | [g1], _ => exact ⟨.oddLength, rfl⟩
    | g1 :: g2 :: rest, hc =>
      by_cases hmem : g1 ∈ alpha ∧ g2 ∈ alpha
      · have hcrest : c ∈ rest := by
          rcases List.mem_cons.1 hc with rfl | hc'
          · exact absurd hmem.1 hnc
          · rcases List.mem_cons.1 hc' with rfl | h
            · exact absurd hmem.2 hnc
            · exact h
        have hlen : rest.length ≤ n := by
          simp only [List.length_cons] at hg; omega
        obtain ⟨e, he⟩ := ih rest hlen c hcrest hnc
        by_cases hv : alpha.indexOf g1 * alpha.length + alpha.indexOf g2 > 255
        · refine ⟨.invalidPair, ?_⟩
          simp only [decGo, if_pos hmem, if_pos hv]
        · refine ⟨e, ?_⟩
          simp only [decGo, if_pos hmem, if_neg hv, he]
          rfl
      · refine ⟨.unknownSymbol, ?_⟩
        simp only [decGo, if_neg hmem]

theorem glyphs_to_bytes_error_of_not_mem {alpha g : List Nat} {c : Nat}
    (hc : c ∈ g) (hnc : c ∉ alpha) :
    ∃ e, glyphs_to_bytes alpha g = .error e := by
  by_cases hodd : g.length % 2 ≠ 0
  · exact ⟨.oddLength, by simp only [glyphs_to_bytes, if_pos hodd]⟩
  · obtain ⟨e, he⟩ := decGo_error_of_not_mem alpha g.length g (Nat.le_refl _) c hc hnc
    exact ⟨e, by simp only [glyphs_to_bytes, if_neg hodd]; exact he⟩

end GlyphNotes

namespace GlyphMatics

theorem encode_bytes_ne_nil {data : List Nat} (h : data ≠ []) :
    encode_bytes_to_glyphs data ≠ [] := by
  cases data with
  | nil => exact absurd rfl h
  | cons b rest => simp [encode_bytes_to_glyphs]

theorem decode_normalize_encode {data : List Nat} (hB : isBytes data) :
    decode_glyphs_to_bytes (normalize_glyphstring (encode_bytes_to_glyphs data))
      = .ok data := by
  rw [normalize_encode_bytes hB]
  exact decode_encode_bytes hB

end GlyphMatics

/-- C1: for every byte sequence `B`, the fixed 111-glyph codec
(`encode_bytes_to_glyphs` / `decode_glyphs_to_bytes`) produces exactly
`2*len(B)` glyphs and decodes back to exactly `B`; and for every
duplicate-free alphabet of at least 16 symbols, the configurable
`GlyphEncoder` codec (`bytes_to_glyphs` / `glyphs_to_bytes`) does the same. -/
theorem C1_codec_round_trip (B alpha : List Nat) (hB : GlyphMatics.isBytes B)
    (hnd : alpha.Nodup) (h16 : 16 ≤ alpha.length) :
    ((GlyphMatics.encode_bytes_to_glyphs B).length = 2 * B.length
      ∧ GlyphMatics.decode_glyphs_to_bytes (GlyphMatics.encode_bytes_to_glyphs B)
          = Except.ok B)
    ∧ ∃ g, GlyphNotes.bytes_to_glyphs alpha B = Except.ok g
        ∧ g.length = 2 * B.length
        ∧ GlyphNotes.glyphs_to_bytes alpha g = Except.ok B := by
  obtain ⟨henc, hdec⟩ := GlyphNotes.bytes_round_trip hnd h16 hB
  exact ⟨⟨GlyphMatics.encode_bytes_length B, GlyphMatics.decode_encode_bytes hB⟩,
    GlyphNotes.encList alpha B, henc, GlyphNotes.encList_length alpha B, hdec⟩

/-- Witness for C1 at `B = [0, 110, 255]` and the 16-symbol alphabet
`[0, …, 15]`. -/
theorem C1_codec_round_trip_witness :
    GlyphMatics.isBytes [0, 110, 255] ∧ (List.range 16).Nodup
    ∧ 16 ≤ (List.range 16).length
    ∧ (((GlyphMatics.encode_bytes_to_glyphs [0, 110, 255]).length
          = 2 * ([0, 110, 255] : List Nat).length
        ∧ GlyphMatics.decode_glyphs_to_bytes
            (GlyphMatics.encode_bytes_to_glyphs [0, 110, 255])
            = Except.ok [0, 110, 255])
      ∧ ∃ g, GlyphNotes.bytes_to_glyphs (List.range 16) [0, 110, 255]
            = Except.ok g
          ∧ g.length = 2 * ([0, 110, 255] : List Nat).length
          ∧ GlyphNotes.glyphs_to_bytes (List.range 16) g
            = Except.ok [0, 110, 255]) :=
  ⟨by decide, by decide, by decide,
    C1_codec_round_trip [0, 110, 255] (List.range 16) (by decide) (by decide)
      (by decide)⟩

set_option maxRecDepth 8000 in
/-- C2 (counterexample): the mixing round trip fails when the key's glyph
encoding is longer than the text's.  With text bytes `[97]` (`"a"`) and key
bytes `[97, 98]` (`"ab"`), decoding the keyed dialog yields `[97, 97]`
(`"aa"`), not the original text, and the keyed glyph length is 4 while the
unkeyed one is 2. -/
theorem C2_counterexample :
    GlyphMatics.glyph_inner_dialog_decode
        (GlyphMatics.glyph_inner_dialog [97] (some [97, 98])) (some [97, 98])
      ≠ Except.ok [97]
    ∧ GlyphMatics.glen (GlyphMatics.glyph_inner_dialog [97] (some [97, 98]))
      ≠ GlyphMatics.glen (GlyphMatics.glyph_inner_dialog [97] none) := by
  constructor
  · intro h
    have : GlyphMatics.glyph_inner_dialog_decode
        (GlyphMatics.glyph_inner_dialog [97] (some [97, 98])) (some [97, 98])
        = Except.ok [97, 97] := by rfl
    rw [this] at h
    simp at h
  · intro h
    have h4 : GlyphMatics.glen
        (GlyphMatics.glyph_inner_dialog [97] (some [97, 98])) = 4 := by rfl
    have h2 : GlyphMatics.glen
        (GlyphMatics.glyph_inner_dialog [97] none) = 2 := by rfl
    rw [h4, h2] at h
    omega

/-- C2 (amended): the inner-dialog mixing round trip and the length
equality hold for every text and key whose UTF-8 byte sequence is empty or
no longer than the text's (in particular whenever the key is absent); the
original unrestricted claim fails, see the counterexample. -/
theorem C2_mixing_round_trip_amended (tb kb : List Nat)
    (htb : GlyphMatics.isBytes tb) (hkb : GlyphMatics.isBytes kb)
    (hlen : kb = [] ∨ kb.length ≤ tb.length) :
    GlyphMatics.glyph_inner_dialog_decode
        (GlyphMatics.glyph_inner_dialog tb (some kb)) (some kb) = Except.ok tb
    ∧ GlyphMatics.glyph_inner_dialog_decode
        (GlyphMatics.glyph_inner_dialog tb none) none = Except.ok tb
    ∧ GlyphMatics.glen (GlyphMatics.glyph_inner_dialog tb (some kb))
      = GlyphMatics.glen (GlyphMatics.glyph_inner_dialog tb none) := by
  have hnone : GlyphMatics.glyph_inner_dialog_decode
      (GlyphMatics.glyph_inner_dialog tb none) none = Except.ok tb := by
    simp only [GlyphMatics.glyph_inner_dialog, GlyphMatics.glyph_inner_dialog_decode,
      GlyphMatics.encode_text_to_glyphs]
    exact GlyphMatics.decode_normalize_encode htb
  by_cases hk0 : kb = []
  · subst hk0
    refine ⟨?_, hnone, ?_⟩
    · simp only [GlyphMatics.glyph_inner_dialog, GlyphMatics.glyph_inner_dialog_decode,
        GlyphMatics.encode_text_to_glyphs, if_pos rfl, if_true, reduceIte]
      exact GlyphMatics.decode_normalize_encode htb
    · simp only [GlyphMatics.glyph_inner_dialog, if_pos rfl, if_true, reduceIte]
  · have hkl : kb.length ≤ tb.length := hlen.resolve_left hk0
    have htb0 : tb ≠ [] := by
      intro h
      subst h
      simp at hkl
      exact hk0 hkl
    have hbase0 : GlyphMatics.encode_bytes_to_glyphs tb ≠ [] :=
      GlyphMatics.encode_bytes_ne_nil htb0
    have hkey0 : GlyphMatics.encode_bytes_to_glyphs kb ≠ [] :=
      GlyphMatics.encode_bytes_ne_nil hk0
    have hbmem : ∀ c ∈ GlyphMatics.encode_bytes_to_glyphs tb,
        c ∈ GlyphMatics.GLYPH_ALPHABET :=
      fun _ hc => GlyphMatics.mem_encode_bytes htb hc
    have hkmem : ∀ c ∈ GlyphMatics.encode_bytes_to_glyphs kb,
        c ∈ GlyphMatics.GLYPH_ALPHABET :=
      fun _ hc => GlyphMatics.mem_encode_bytes hkb hc
    have hll : (GlyphMatics.encode_bytes_to_glyphs kb).length
        ≤ (GlyphMatics.encode_bytes_to_glyphs tb).length := by
      rw [GlyphMatics.encode_bytes_length, GlyphMatics.encode_bytes_length]
      omega
    have hgaddmem : ∀ c ∈ GlyphMatics.gadd (GlyphMatics.encode_bytes_to_glyphs tb)
        (GlyphMatics.encode_bytes_to_glyphs kb), c ∈ GlyphMatics.GLYPH_ALPHABET :=
      fun _ hc => GlyphMatics.mem_gadd hc
    refine ⟨?_, hnone, ?_⟩
    · simp only [GlyphMatics.glyph_inner_dialog, GlyphMatics.glyph_inner_dialog_decode,
        GlyphMatics.encode_text_to_glyphs, if_neg hk0]
      rw [GlyphMatics.normalize_eq_self hgaddmem,
        GlyphMatics.gsub_gadd_pure hbmem hkmem hbase0 hkey0 hll]
      exact GlyphMatics.decode_encode_bytes htb
    · simp only [GlyphMatics.glyph_inner_dialog, GlyphMatics.encode_text_to_glyphs,
        if_neg hk0, GlyphMatics.glen]
      rw [GlyphMatics.normalize_eq_self hgaddmem,
        GlyphMatics.normalize_eq_self hbmem,
        GlyphMatics.gadd_length_pure hbmem hkmem hbase0 hkey0,
        Nat.max_eq_left hll]

/-- Witness for the amended C2 at text bytes `[104, 105]` (`"hi"`) and key
bytes `[107]` (`"k"`). -/
theorem C2_mixing_round_trip_witness :
    GlyphMatics.isBytes [104, 105] ∧ GlyphMatics.isBytes [107]
    ∧ (([107] : List Nat) = [] ∨ ([107] : List Nat).length ≤ ([104, 105] : List Nat).length)
    ∧ (GlyphMatics.glyph_inner_dialog_decode
          (GlyphMatics.glyph_inner_dialog [104, 105] (some [107])) (some [107])
          = Except.ok [104, 105]
      ∧ GlyphMatics.glyph_inner_dialog_decode
          (GlyphMatics.glyph_inner_dialog [104, 105] none) none
          = Except.ok [104, 105]
      ∧ GlyphMatics.glen (GlyphMatics.glyph_inner_dialog [104, 105] (some [107]))
          = GlyphMatics.glen (GlyphMatics.glyph_inner_dialog [104, 105] none)) :=
  ⟨by decide, by decide, by decide,
    C2_mixing_round_trip_amended [104, 105] [107] (by decide) (by decide)
      (by decide)⟩

/-- C3 (counterexample): the fixed 111-glyph codec does **not** fail on
inputs containing out-of-alphabet symbols: `decode_glyphs_to_bytes` first
normalizes, which silently drops them.  The input `"A"` (codepoint 65, not
in the alphabet) decodes successfully to the empty byte string. -/
theorem C3_counterexample :
    (65 ∉ GlyphMatics.GLYPH_ALPHABET)
    ∧ GlyphMatics.decode_glyphs_to_bytes [65] = Except.ok [] :=
  ⟨by decide, rfl⟩

/-- C3 (amended): for the configurable `GlyphEncoder` codec, every input
containing a symbol outside the alphabet fails to decode; the fixed
111-glyph codec instead strips out-of-alphabet symbols during
normalization — its decoding of any input equals the decoding of the
input's normalization, and can succeed (see the counterexample). -/
theorem C3_unknown_symbol_amended (alpha g : List Nat) (c : Nat)
    (hc : c ∈ g) (hnc : c ∉ alpha) :
    (∃ e, GlyphNotes.glyphs_to_bytes alpha g = Except.error e)
    ∧ (∀ s, GlyphMatics.decode_glyphs_to_bytes s
        = GlyphMatics.decode_glyphs_to_bytes (GlyphMatics.normalize_glyphstring s)) := by
  refine ⟨GlyphNotes.glyphs_to_bytes_error_of_not_mem hc hnc, fun s => ?_⟩
  unfold GlyphMatics.decode_glyphs_to_bytes
  rw [GlyphMatics.normalize_normalize]

/-- Witness for the amended C3 at the even-length input `[65, 66]`
(`"AB"`), the out-of-alphabet symbol 65, and the 111-glyph alphabet. -/
theorem C3_unknown_symbol_witness :
    (65 ∈ ([65, 66] : List Nat)) ∧ (65 ∉ GlyphMatics.GLYPH_ALPHABET)
    ∧ ((∃ e, GlyphNotes.glyphs_to_bytes GlyphMatics.GLYPH_ALPHABET [65, 66]
          = Except.error e)
      ∧ (∀ s, GlyphMatics.decode_glyphs_to_bytes s
          = GlyphMatics.decode_glyphs_to_bytes (GlyphMatics.normalize_glyphstring s))) :=
  ⟨by decide, by decide,
    C3_unknown_symbol_amended GlyphMatics.GLYPH_ALPHABET [65, 66] 65
      (by decide) (by decide)⟩

/-- C7: `fingerprint_glyphstring` is total (it is a plain function into
`GlyphFingerprint`); its `length` field is always the normalized glyph
length and its `glyph_crc` is always computed over the normalized string;
when the normalized string fails to decode under the 2-glyph-per-byte
codec, `byte_crc` and `entropy_est` are 0. -/
theorem C7_fingerprint_total_degrade (crcS crcB : List Nat → Nat)
    (ent : List Nat → ℚ) (s : List Nat) :
    (GlyphMatics.fingerprint_glyphstring crcS crcB ent s).length
      = GlyphMatics.glen s
    ∧ (GlyphMatics.fingerprint_glyphstring crcS crcB ent s).glyph_crc
      = GlyphMatics.glyph_crc32 crcS s
    ∧ (∀ e, GlyphMatics.decode_glyphs_to_bytes (GlyphMatics.normalize_glyphstring s)
          = Except.error e →
        (GlyphMatics.fingerprint_glyphstring crcS crcB ent s).byte_crc = 0
        ∧ (GlyphMatics.fingerprint_glyphstring crcS crcB ent s).entropy_est = 0) := by
  have hcrc : GlyphMatics.glyph_crc32 crcS (GlyphMatics.normalize_glyphstring s)
      = GlyphMatics.glyph_crc32 crcS s := by
    simp only [GlyphMatics.glyph_crc32, GlyphMatics.normalize_normalize]
  cases hdec : GlyphMatics.decode_glyphs_to_bytes (GlyphMatics.normalize_glyphstring s) with
  | ok data =>
    refine ⟨?_, ?_, ?_⟩
    · simp only [GlyphMatics.fingerprint_glyphstring, hdec, GlyphMatics.glen]
    · simp only [GlyphMatics.fingerprint_glyphstring, hdec, hcrc]
    · intro e he
      simp at he
  | error e0 =>
    refine ⟨?_, ?_, ?_⟩
    · simp only [GlyphMatics.fingerprint_glyphstring, hdec, GlyphMatics.glen]
    · simp only [GlyphMatics.fingerprint_glyphstring, hdec, hcrc]
    · intro e _
      constructor <;> simp only [GlyphMatics.fingerprint_glyphstring, hdec]

/-- Witness for C7 at the one-glyph input `[10038]` (odd length, so the
codec fails) and trivial external CRC/entropy functions. -/
theorem C7_fingerprint_witness :
    GlyphMatics.decode_glyphs_to_bytes (GlyphMatics.normalize_glyphstring [10038])
      = Except.error GlyphMatics.CodecError.oddLength
    ∧ (GlyphMatics.fingerprint_glyphstring (fun _ => 0) (fun _ => 0)
        (fun _ => 0) [10038]).length = GlyphMatics.glen [10038]
    ∧ (GlyphMatics.fingerprint_glyphstring (fun _ => 0) (fun _ => 0)
        (fun _ => 0) [10038]).byte_crc = 0
    ∧ (GlyphMatics.fingerprint_glyphstring (fun _ => 0) (fun _ => 0)
        (fun _ => 0) [10038]).entropy_est = 0 := by
  have h := C7_fingerprint_total_degrade (fun _ => 0) (fun _ => 0) (fun _ => 0) [10038]
  have hdec : GlyphMatics.decode_glyphs_to_bytes
      (GlyphMatics.normalize_glyphstring [10038])
      = Except.error GlyphMatics.CodecError.oddLength := rfl
  obtain ⟨hb, hent⟩ := h.2.2 GlyphMatics.CodecError.oddLength hdec
  exact ⟨hdec, h.1, hb, hent⟩

/-- C9: `assign_sigils` rejects an empty entries list up front with the
no-entries error, before any other processing. -/
theorem C9_empty_lexicon_rejected (crcT : List Nat → Nat) (base cap : Nat) :
    Sigil.assign_sigils crcT [] base cap
      = Except.error Sigil.SigilError.noEntries := rfl

/-- C10: the algebra operations `gcat`, `gadd`, `gsub` and `ginv` produce
only alphabet symbols, so `normalize_glyphstring` is the identity on their
outputs; in particular normalization is idempotent. -/
theorem C10_algebra_outputs_normalized (a b s : List Nat) :
    GlyphMatics.normalize_glyphstring (GlyphMatics.gcat a b) = GlyphMatics.gcat a b
    ∧ GlyphMatics.normalize_glyphstring (GlyphMatics.gadd a b) = GlyphMatics.gadd a b
    ∧ GlyphMatics.normalize_glyphstring (GlyphMatics.gsub a b) = GlyphMatics.gsub a b
    ∧ GlyphMatics.normalize_glyphstring (GlyphMatics.ginv s) = GlyphMatics.ginv s
    ∧ GlyphMatics.normalize_glyphstring (GlyphMatics.normalize_glyphstring s)
      = GlyphMatics.normalize_glyphstring s :=
  ⟨GlyphMatics.normalize_eq_self (fun _ h => GlyphMatics.mem_gcat h),
   GlyphMatics.normalize_eq_self (fun _ h => GlyphMatics.mem_gadd h),
   GlyphMatics.normalize_eq_self (fun _ h => GlyphMatics.mem_gsub h),
   GlyphMatics.normalize_eq_self (fun _ h => GlyphMatics.mem_ginv h),
   GlyphMatics.normalize_normalize s⟩

namespace Encap

theorem take_append_len (a b : List Nat) {n : Nat} (h : n = a.length) :
    (a ++ b).take n = a := by
  subst h
  induction a with
  | nil => simp
  | cons x xs ih => simpa using ih

theorem drop_append_len (a b : List Nat) {n : Nat} (h : n = a.length) :
    (a ++ b).drop n = b := by
  subst h
  induction a with
  | nil => simp
  | cons x xs ih => simpa using ih

theorem get?_append_len (a : List Nat) (c : Nat) (b : List Nat) {n : Nat}
    (h : n = a.length) : (a ++ c :: b).get? n = some c := by
  subst h
  induction a with
  | nil => rfl
  | cons x xs ih => simpa using ih

theorem fromLE_u16 (x : Nat) : fromLE (u16 x) = x % 2 ^ 16 := by
  simp only [u16, fromLE, List.foldr]
  omega

theorem fromLE_u32 (x : Nat) : fromLE (u32 x) = x % 2 ^ 32 := by
  simp only [u32, fromLE, List.foldr]
  omega

theorem strip_to_braille {B : List Nat} (hB : GlyphMatics.isBytes B) :
    (to_braille B).map (fun ch => (ch - BRAILLE_BASE) % 256) = B := by
  induction B with
  | nil => rfl
  | cons x xs ih =>
    have hx : x < 256 := hB x (List.mem_cons_self x xs)
    have hxs : GlyphMatics.isBytes xs := fun y hy => hB y (List.mem_cons_of_mem x hy)
    simp only [to_braille, List.map_cons, List.cons.injEq] at *
    refine ⟨?_, ih hxs⟩
    simp only [BRAILLE_BASE]
    omega

theorem to_braille_filter_all (B : List Nat) :
    (to_braille B).filter (fun ch => BRAILLE_BASE ≤ ch ∧ ch ≤ 0x28FF)
      = to_braille B := by
  refine List.filter_eq_self.2 ?_
  intro c hc
  obtain ⟨x, _, rfl⟩ := List.mem_map.1 hc
  refine decide_eq_true ?_
  constructor
  · simp [BRAILLE_BASE]
  · have : x % 256 < 256 := Nat.mod_lt _ (by omega)
    simp only [BRAILLE_BASE]
    omega

theorem from_braille_to_braille {B : List Nat} (hB : GlyphMatics.isBytes B) :
    from_braille (to_braille B) = B := by
  unfold from_braille
  rw [to_braille_filter_all, strip_to_braille hB]

theorem isBytes_append {a b : List Nat} (ha : GlyphMatics.isBytes a)
    (hb : GlyphMatics.isBytes b) : GlyphMatics.isBytes (a ++ b) := by
  intro x hx
  rcases List.mem_append.1 hx with h | h
  · exact ha x h
  · exact hb x h

theorem isBytes_cons {y : Nat} {l : List Nat} (hy : y < 256)
    (hl : GlyphMatics.isBytes l) : GlyphMatics.isBytes (y :: l) := by
  intro x hx
  rcases List.mem_cons.1 hx with rfl | h
  · exact hy
  · exact hl x h

theorem isBytes_u8 (x : Nat) : GlyphMatics.isBytes (u8 x) := by
  intro y hy
  simp [u8] at hy
  omega

theorem isBytes_u16 (x : Nat) : GlyphMatics.isBytes (u16 x) := by
  intro y hy
  simp [u16] at hy
  rcases hy with rfl | rfl <;> omega

theorem isBytes_u32 (x : Nat) : GlyphMatics.isBytes (u32 x) := by
  intro y hy
  simp [u32] at hy
  rcases hy with rfl | rfl | rfl | rfl <;> omega

theorem from_braille_append (a b : List Nat) :
    from_braille (a ++ b) = from_braille a ++ from_braille b := by
  simp [from_braille, List.filter_append]

theorem from_braille_eq_nil {l : List Nat}
    (h : ∀ c ∈ l, ¬(BRAILLE_BASE ≤ c ∧ c ≤ 0x28FF)) : from_braille l = [] := by
  unfold from_braille
  have : l.filter (fun ch => BRAILLE_BASE ≤ ch ∧ ch ≤ 0x28FF) = [] := by
    refine List.filter_eq_nil.2 ?_
    intro c hc
    simpa using h c hc
  rw [this]
  rfl

theorem from_braille_linePre {title : List Nat}
    (h : ∀ c ∈ title, ¬(BRAILLE_BASE ≤ c ∧ c ≤ 0x28FF)) :
    from_braille (linePre title) = [] := by
  apply from_braille_eq_nil
  intro c hc
  simp only [linePre, List.append_assoc, List.mem_append] at hc
  rcases hc with h1 | h2 | h3
  · revert h1
    revert c
    decide
  · exact h c h2
  · revert h3
    revert c
    decide

theorem from_braille_lineSuf : from_braille lineSuf = [] := by decide

theorem from_braille_line {title v3f : List Nat}
    (htitle : ∀ c ∈ title, ¬(BRAILLE_BASE ≤ c ∧ c ≤ 0x28FF))
    (hv3f : GlyphMatics.isBytes v3f) :
    from_braille (linePre title ++ to_braille v3f ++ lineSuf) = v3f := by
  rw [from_braille_append, from_braille_append, from_braille_linePre htitle,
    from_braille_to_braille hv3f, from_braille_lineSuf]
  simp

theorem drop_hdr (c x : Nat) (m r : List Nat) :
    (MAGIC ++ (c :: (u16 x ++ (m ++ r)))).drop (11 + m.length) = r := by
  have hsh : MAGIC ++ (c :: (u16 x ++ (m ++ r)))
      = ((MAGIC ++ c :: u16 x) ++ m) ++ r := by
    simp
  rw [hsh]
  exact drop_append_len _ _ (by simp [u16, MAGIC]; omega)

theorem drop_hdr4 (c x : Nat) (m : List Nat) (y : Nat) (r : List Nat) :
    (MAGIC ++ (c :: (u16 x ++ (m ++ (u32 y ++ r))))).drop (11 + m.length + 4)
      = r := by
  have hsh : MAGIC ++ (c :: (u16 x ++ (m ++ (u32 y ++ r))))
      = (((MAGIC ++ c :: u16 x) ++ m) ++ u32 y) ++ r := by
    simp
  rw [hsh]
  exact drop_append_len _ _ (by simp [u16, u32, MAGIC]; omega)

theorem scanBlocks_cons_block (blk : Block) (hwf : wfBlock blk)
    (rest : List Nat) (acc : List (List Nat × List Nat)) :
    scanBlocks (encBlock blk ++ rest) acc
      = scanBlocks rest (extractBlock blk :: acc) := by
  obtain ⟨hvmin, hvmax, hplen⟩ := hwf
  have hname_le : (blk.name.take 255).length ≤ 255 := by
    rw [List.length_take]
    exact Nat.min_le_left _ _
  have hsh : encBlock blk ++ rest
      = 1 :: (blk.name.take 255).length ::
        (blk.name.take 255 ++ (u16 blk.ndim ++ (blk.vminB ++ (blk.vmaxB ++
          (u32 blk.payload.length ++ (blk.payload ++ rest)))))) := by
    simp [encBlock, u8, Nat.mod_eq_of_lt (show (blk.name.take 255).length < 256 by omega)]
  have hdrop2 : ∀ (x : Nat) (b : List Nat), (u16 x ++ b).drop 2 = b :=
    fun x b => drop_append_len (u16 x) b rfl
  have hdrop4u : ∀ (x : Nat) (b : List Nat), (u32 x ++ b).drop 4 = b :=
    fun x b => drop_append_len (u32 x) b rfl
  have htake4u : ∀ (x : Nat) (b : List Nat), (u32 x ++ b).take 4 = u32 x :=
    fun x b => take_append_len (u32 x) b rfl
  rw [hsh]
  simp only [scanBlocks]
  rw [if_neg (by omega)]
  rw [take_append_len (blk.name.take 255) _ rfl]
  rw [drop_append_len (blk.name.take 255) _ rfl]
  rw [hdrop2]
  rw [if_neg (by rw [List.length_append, hvmin]; omega)]
  rw [drop_append_len blk.vminB _ hvmin.symm]
  rw [if_neg (by rw [List.length_append, hvmax]; omega)]
  rw [drop_append_len blk.vmaxB _ hvmax.symm]
  rw [htake4u, fromLE_u32, Nat.mod_eq_of_lt hplen]
  rw [hdrop4u]
  rw [take_append_len blk.payload _ rfl]
  rw [drop_append_len blk.payload _ rfl]
  rfl

theorem scanBlocks_flatten (bs : List Block) (hwf : ∀ blk ∈ bs, wfBlock blk)
    (tail : List Nat) (acc : List (List Nat × List Nat)) :
    scanBlocks ((bs.map encBlock).flatten ++ tail) acc
      = scanBlocks tail ((bs.map extractBlock).reverse ++ acc) := by
  induction bs generalizing acc with
  | nil => simp
  | cons b bs ih =>
    have hb : wfBlock b := hwf b (by simp)
    have hbs : ∀ blk ∈ bs, wfBlock blk := fun blk hblk => hwf blk (by simp [hblk])
    simp only [List.map_cons, List.flatten_cons, List.append_assoc]
    rw [scanBlocks_cons_block b hb _ acc, ih hbs]
    simp

end Encap

/-- C5: the armor transform round-trips: `from_braille (to_braille B) = B`
for every byte sequence `B`, and `from_braille` still recovers `B` from any
string whose armor-range characters are exactly `to_braille B` — i.e. with
arbitrary non-armor characters interleaved anywhere. -/
theorem C5_armor_round_trip (B t : List Nat) (hB : GlyphMatics.isBytes B)
    (hfil : t.filter (fun ch => Encap.BRAILLE_BASE ≤ ch ∧ ch ≤ 0x28FF)
      = Encap.to_braille B) :
    Encap.from_braille (Encap.to_braille B) = B
    ∧ Encap.from_braille t = B := by
  refine ⟨Encap.from_braille_to_braille hB, ?_⟩
  unfold Encap.from_braille
  rw [hfil, Encap.strip_to_braille hB]

/-- Witness for C5 at `B = [0, 255, 17]` and the interleaving
`t = [65, 10240, 10495, 66, 10257, 8226]` (armor chars `10240, 10495,
10257` interleaved with `"A"`, `"B"`, `"•"`). -/
theorem C5_armor_round_trip_witness :
    GlyphMatics.isBytes [0, 255, 17]
    ∧ ([65, 10240, 10495, 66, 10257, 8226] : List Nat).filter
        (fun ch => Encap.BRAILLE_BASE ≤ ch ∧ ch ≤ 0x28FF)
        = Encap.to_braille [0, 255, 17]
    ∧ (Encap.from_braille (Encap.to_braille [0, 255, 17]) = [0, 255, 17]
      ∧ Encap.from_braille [65, 10240, 10495, 66, 10257, 8226] = [0, 255, 17]) :=
  ⟨by decide, by decide,
    C5_armor_round_trip [0, 255, 17] [65, 10240, 10495, 66, 10257, 8226]
      (by decide) (by decide)⟩

/-- C8: if the leaf body's block region holds a well-formed serialized
block sequence but no zero terminator, the decoder's block scan consumes
it to the end and returns exactly the parsed blocks — the same result as
for the properly terminated sequence — instead of failing. -/
theorem C8_terminatorless_scan (bs : List Encap.Block)
    (hwf : ∀ blk ∈ bs, Encap.wfBlock blk) :
    Encap.scanBlocks ((bs.map Encap.encBlock).flatten) []
      = some (bs.map Encap.extractBlock)
    ∧ Encap.scanBlocks ((bs.map Encap.encBlock).flatten ++ [0]) []
      = some (bs.map Encap.extractBlock) := by
  constructor
  · have h := Encap.scanBlocks_flatten bs hwf [] []
    rw [List.append_nil] at h
    rw [h]
    simp [Encap.scanBlocks]
  · rw [Encap.scanBlocks_flatten bs hwf [0] []]
    simp [Encap.scanBlocks]

namespace Sigil

theorem assignLoop_enumFrom (crcT : List Nat → Nat) (base : Nat) :
    ∀ (L : List RawEntry) (k : Nat) (used : List Nat),
      (∀ u ∈ used, u < base + k) →
      assignLoop crcT base (List.enumFrom k L) used
        = .ok (sigilize crcT base (List.enumFrom k L)) := by
  intro L
  induction L with
  | nil => intro k used _; rfl
  | cons e L ih =>
    intro k used hused
    simp only [List.enumFrom]
    by_cases hacc : acceptedEntry e
    · have hnotin : (base + k) ∉ used := fun hmem => by
        have := hused _ hmem
        omega
      have hrec := ih (k + 1) ((base + k) :: used) (by
        intro u hu
        rcases List.mem_cons.1 hu with rfl | hu
        · omega
        · have := hused u hu
          omega)
      simp only [assignLoop, sigilize, hacc, if_true, if_neg hnotin, hrec]
      rfl
    · simp only [assignLoop, sigilize, hacc, if_false, Bool.false_eq_true, reduceIte]
      exact ih (k + 1) used (fun u hu => by have := hused u hu; omega)

theorem mem_sigilize_enumFrom (crcT : List Nat → Nat) (base : Nat) :
    ∀ (L : List RawEntry) (k : Nat) (se : SigilEntry),
      se ∈ sigilize crcT base (List.enumFrom k L) →
      k ≤ se.index ∧ se.index < k + L.length
      ∧ se.sigil = base + se.index ∧ se.codepoint = base + se.index
      ∧ ∃ raw, L.get? (se.index - k) = some raw ∧ acceptedEntry raw = true
          ∧ se = mkSigilEntry crcT base se.index raw := by
  intro L
  induction L with
  | nil => intro k se h; simp [sigilize, List.enumFrom] at h
  | cons e L ih =>
    intro k se h
    simp only [List.enumFrom] at h
    by_cases hacc : acceptedEntry e
    · simp only [sigilize, hacc, if_true, List.mem_cons] at h
      rcases h with rfl | h
      · refine ⟨Nat.le_refl _, by simp [mkSigilEntry], rfl, rfl, e, ?_, hacc, rfl⟩
        simp [mkSigilEntry]
      · obtain ⟨h1, h2, h3, h4, raw, hget, hraw, hse⟩ := ih (k + 1) se h
        refine ⟨by omega, by simp only [List.length_cons]; omega, h3, h4,
          raw, ?_, hraw, hse⟩
        have hidx : se.index - k = (se.index - (k + 1)) + 1 := by omega
        rw [hidx]
        simpa using hget
    · simp only [sigilize, hacc, if_false, Bool.false_eq_true, reduceIte] at h
      obtain ⟨h1, h2, h3, h4, raw, hget, hraw, hse⟩ := ih (k + 1) se h
      refine ⟨by omega, by simp only [List.length_cons]; omega, h3, h4,
        raw, ?_, hraw, hse⟩
      have hidx : se.index - k = (se.index - (k + 1)) + 1 := by omega
      rw [hidx]
      simpa using hget

theorem sigilize_sigil_lower (crcT : List Nat → Nat) (base : Nat)
    (L : List RawEntry) (k : Nat) {se : SigilEntry}
    (h : se ∈ sigilize crcT base (List.enumFrom k L)) : base + k ≤ se.sigil := by
  obtain ⟨h1, _, h3, _⟩ := mem_sigilize_enumFrom crcT base L k se h
  omega

theorem sigilize_pairwise (crcT : List Nat → Nat) (base : Nat) :
    ∀ (L : List RawEntry) (k : Nat),
      (sigilize crcT base (List.enumFrom k L)).Pairwise
        (fun a b => a.sigil < b.sigil) := by
  intro L
  induction L with
  | nil => intro k; simp [sigilize, List.enumFrom]
  | cons e L ih =>
    intro k
    simp only [List.enumFrom]
    by_cases hacc : acceptedEntry e
    · simp only [sigilize, hacc, if_true]
      refine List.Pairwise.cons ?_ (ih (k + 1))
      intro se hse
      have := sigilize_sigil_lower crcT base L (k + 1) hse
      simp only [mkSigilEntry]
      omega
    · simp only [sigilize, hacc, if_false, Bool.false_eq_true, reduceIte]
      exact ih (k + 1)

theorem find?_self_of_pairwise :
    ∀ (l : List SigilEntry), l.Pairwise (fun a b => a.sigil < b.sigil) →
      ∀ se ∈ l, l.find? (fun x => x.sigil == se.sigil) = some se := by
  intro l
  induction l with
  | nil => intro _ se h; simp at h
  | cons e0 l ih =>
    intro hp se hse
    have hp' := List.pairwise_cons.1 hp
    rcases List.mem_cons.1 hse with rfl | hmem
    · simp [List.find?_cons]
    · have hne : (e0.sigil == se.sigil) = false := by
        have := hp'.1 se hmem
        simp only [beq_eq_false_iff_ne, ne_eq]
        omega
      rw [List.find?_cons_of_neg _ (by simp [hne])]
      exact ih hp'.2 se hmem

end Sigil

namespace Encap

theorem decode_superparagraph_eval {σ : Type}
    (decompress : List Nat → Option (List Nat)) (crc : List Nat → Nat)
    (spParse : List Nat → Option σ)
    (title P m2 m3 C2 C3 R2 V2 R3 V3 : List Nat)
    (hR2 : R2 = MAGIC ++ (2 :: (u16 m2.length ++ (m2 ++
      (encBlock ⟨nameSP, 0, f32zero, f32zero, P⟩ ++ [0])))))
    (hV2 : V2 = C2 ++ u32 (crc C2))
    (hR3 : R3 = MAGIC ++ (3 :: (u16 m3.length ++ (m3 ++ (u32 V2.length ++ V2)))))
    (hV3 : V3 = C3 ++ u32 (crc C3))
    (hd2 : decompress C2 = some R2) (hd3 : decompress C3 = some R3)
    (hcrc2 : crc C2 < 2 ^ 32) (hcrc3 : crc C3 < 2 ^ 32)
    (hm2len : m2.length < 2 ^ 16) (hm3len : m3.length < 2 ^ 16)
    (hV2len : V2.length < 2 ^ 32) (hPlen : P.length < 2 ^ 32)
    (hV3B : GlyphMatics.isBytes V3)
    (htitle : ∀ c ∈ title, ¬(BRAILLE_BASE ≤ c ∧ c ≤ 0x28FF)) :
    decode_superparagraph decompress crc spParse
      (linePre title ++ to_braille V3 ++ lineSuf) = spParse P := by
  have hfb : from_braille (linePre title ++ to_braille V3 ++ lineSuf) = V3 :=
    from_braille_line htitle hV3B
  have hlen3 : V3.length - 4 = C3.length := by
    rw [hV3]
    simp [u32]
  have htake3 : V3.take (V3.length - 4) = C3 := by
    rw [hlen3, hV3]
    exact take_append_len _ _ rfl
  have hdrop3 : V3.drop (V3.length - 4) = u32 (crc C3) := by
    rw [hlen3, hV3]
    exact drop_append_len _ _ rfl
  have htk8_3 : R3.take 8 = MAGIC := by rw [hR3]; rfl
  have hget8_3 : R3.get? 8 = some 3 := by rw [hR3]; rfl
  have hmlen3 : (R3.drop 9).take 2 = u16 m3.length := by
    rw [hR3]
    exact take_append_len _ _ rfl
  have hmod3 : m3.length % 2 ^ 16 = m3.length := Nat.mod_eq_of_lt hm3len
  have hoff3 : R3.drop (11 + m3.length) = u32 V2.length ++ V2 := by
    rw [hR3]
    exact drop_hdr _ _ _ _
  have htk4 : (u32 V2.length ++ V2).take 4 = u32 V2.length :=
    take_append_len _ _ rfl
  have hoff34 : R3.drop (11 + m3.length + 4) = V2 := by
    rw [hR3]
    exact drop_hdr4 _ _ _ _ _
  have hlen2 : V2.length - 4 = C2.length := by
    rw [hV2]
    simp [u32]
  have htake2 : V2.take (V2.length - 4) = C2 := by
    rw [hlen2, hV2]
    exact take_append_len _ _ rfl
  have hdrop2 : V2.drop (V2.length - 4) = u32 (crc C2) := by
    rw [hlen2, hV2]
    exact drop_append_len _ _ rfl
  have htk8_2 : R2.take 8 = MAGIC := by rw [hR2]; rfl
  have hget8_2 : R2.get? 8 = some 2 := by rw [hR2]; rfl
  have hmlen2 : (R2.drop 9).take 2 = u16 m2.length := by
    rw [hR2]
    exact take_append_len _ _ rfl
  have hmod2 : m2.length % 2 ^ 16 = m2.length := Nat.mod_eq_of_lt hm2len
  have hmodc3 : crc C3 % 2 ^ 32 = crc C3 := Nat.mod_eq_of_lt hcrc3
  have hmodc2 : crc C2 % 2 ^ 32 = crc C2 := Nat.mod_eq_of_lt hcrc2
  have hmodV2 : V2.length % 2 ^ 32 = V2.length := Nat.mod_eq_of_lt hV2len
  have hscan0 : R2.drop (11 + m2.length)
      = encBlock ⟨nameSP, 0, f32zero, f32zero, P⟩ ++ [0] := by
    rw [hR2]
    exact drop_hdr _ _ _ _
  have hwfb : wfBlock ⟨nameSP, 0, f32zero, f32zero, P⟩ := ⟨rfl, rfl, hPlen⟩
  have hext : extractBlock ⟨nameSP, 0, f32zero, f32zero, P⟩ = (nameSP, P) := rfl
  have hscan : scanBlocks (encBlock ⟨nameSP, 0, f32zero, f32zero, P⟩ ++ [0]) []
      = some [(nameSP, P)] := by
    rw [scanBlocks_cons_block _ hwfb, hext]
    simp [scanBlocks]
  have hfind : List.find? (fun blk => blk.1 == nameSP) [((nameSP : List Nat), P)]
      = some (nameSP, P) := by rfl
  simp only [decode_superparagraph, hfb, htake3, hdrop3, fromLE_u32, fromLE_u16,
    hmodc3, hmodc2, hmodV2, hmod3, hmod2, hd3, hd2, htk8_3, hget8_3, htk8_2,
    hget8_2, hmlen3, hmlen2, Nat.reduceAdd, hoff3, htk4, hoff34,
    List.take_length, htake2, hdrop2, hscan0, hscan, hfind, ne_eq,
    eq_self_iff_true, not_true, if_false, if_true, reduceIte]

end Encap

/-- C4: decoding the single line produced by `encode_superparagraph`
reproduces the original superparagraph record exactly (hence in particular
its `word` and `definition` fields), for every record, independent of the
compressor's internal parameters: the compressor appears only through the
hypotheses that it is lossless, produces byte output whose length fits the
`u32` inner-length prefix, and that the CRC is 32-bit; the JSON layer
appears only through parse-of-print (`spParse (spSer sp) = some sp`).
`R2`, `V2`, `R3` name the intermediate leaf raw bytes, leaf envelope and
page raw bytes actually built by the encoder. -/
theorem C4_superparagraph_round_trip {σ : Type}
    (compress : List Nat → List Nat) (decompress : List Nat → Option (List Nat))
    (crc : List Nat → Nat) (spSer : σ → List Nat) (spParse : List Nat → Option σ)
    (metaSer2 : σ → List Nat) (metaSer3 : List Nat → List Nat)
    (sp : σ) (title : List Nat) (R2 V2 R3 : List Nat)
    (hR2 : R2 = Encap.MAGIC ++ (2 :: (Encap.u16 (metaSer2 sp).length ++
      (metaSer2 sp ++ (Encap.encBlock
        ⟨Encap.nameSP, 0, Encap.f32zero, Encap.f32zero, spSer sp⟩ ++ [0])))))
    (hV2 : V2 = compress R2 ++ Encap.u32 (crc (compress R2)))
    (hR3 : R3 = Encap.MAGIC ++ (3 :: (Encap.u16 (metaSer3 title).length ++
      (metaSer3 title ++ (Encap.u32 V2.length ++ V2)))))
    (hlossless : ∀ l, decompress (compress l) = some l)
    (hcrc32 : ∀ l, crc l < 2 ^ 32)
    (hC2len : (compress R2).length + 4 < 2 ^ 32)
    (hC3B : GlyphMatics.isBytes (compress R3))
    (hparse : spParse (spSer sp) = some sp)
    (hm2len : (metaSer2 sp).length < 2 ^ 16)
    (hm3len : (metaSer3 title).length < 2 ^ 16)
    (hPlen : (spSer sp).length < 2 ^ 32)
    (htitle : ∀ c ∈ title, ¬(Encap.BRAILLE_BASE ≤ c ∧ c ≤ 0x28FF)) :
    Encap.decode_superparagraph decompress crc spParse
      (Encap.encode_superparagraph compress crc spSer metaSer2 metaSer3 sp title)
      = some sp := by
  have h2 : Encap.encode_v2_leaf compress crc (metaSer2 sp)
      [⟨Encap.nameSP, 0, Encap.f32zero, Encap.f32zero, spSer sp⟩] = V2 := by
    rw [hV2, hR2]
    simp only [Encap.encode_v2_leaf, Encap.u8, List.map_cons, List.map_nil,
      List.flatten_cons, List.flatten_nil, List.append_nil, List.append_assoc,
      List.singleton_append, List.cons_append, List.nil_append, Nat.reduceMod]
  have h3 : Encap.encode_v3_page compress crc (metaSer3 title) V2
      = compress R3 ++ Encap.u32 (crc (compress R3)) := by
    rw [hR3]
    simp only [Encap.encode_v3_page, Encap.u8, List.append_assoc,
      List.singleton_append, List.cons_append, List.nil_append, Nat.reduceMod]
  have hshape : Encap.encode_superparagraph compress crc spSer metaSer2
      metaSer3 sp title
      = Encap.linePre title
        ++ Encap.to_braille (compress R3 ++ Encap.u32 (crc (compress R3)))
        ++ Encap.lineSuf := by
    simp only [Encap.encode_superparagraph]
    rw [h2, h3]
  have hV2len : V2.length < 2 ^ 32 := by
    rw [hV2]
    simpa [Encap.u32] using hC2len
  have hV3B : GlyphMatics.isBytes
      (compress R3 ++ Encap.u32 (crc (compress R3))) :=
    Encap.isBytes_append hC3B (Encap.isBytes_u32 _)
  rw [hshape]
  exact (Encap.decode_superparagraph_eval decompress crc spParse title
    (spSer sp) (metaSer2 sp) (metaSer3 title) (compress R2) (compress R3)
    R2 V2 R3 (compress R3 ++ Encap.u32 (crc (compress R3))) hR2 hV2 hR3 rfl
    (hlossless R2) (hlossless R3) (hcrc32 _) (hcrc32 _) hm2len hm3len hV2len
    hPlen hV3B htitle).trans hparse

/-- Witness for C4 with the identity compressor, zero CRC, record payload
`[120]` (`"x"`), empty metadata and empty title. -/
theorem C4_superparagraph_round_trip_witness :
    Encap.R2W.length + 4 < 2 ^ 32
    ∧ GlyphMatics.isBytes Encap.R3W
    ∧ Encap.decode_superparagraph (fun l => some l) (fun _ => 0)
        (fun _ => some 7)
        (Encap.encode_superparagraph (fun l => l) (fun _ => 0)
          (fun _ => [120]) (fun _ => ([] : List Nat))
          (fun _ => ([] : List Nat)) 7 []) = some 7 :=
  ⟨by decide, by decide,
    C4_superparagraph_round_trip (fun l => l) (fun l => some l) (fun _ => 0)
      (fun _ => [120]) (fun _ => some 7) (fun _ => ([] : List Nat))
      (fun _ => ([] : List Nat)) 7 [] Encap.R2W Encap.V2W Encap.R3W rfl rfl rfl
      (fun _ => rfl) (fun _ => (by decide : (0 : Nat) < 2 ^ 32)) (by decide)
      (by decide) rfl
      (by decide) (by decide) (by decide) (by decide)⟩

/-- C6: for every input lexicon with at most `capacity` entries (and at
least one), `assign_sigils` succeeds and the accepted entries have pairwise
distinct sigils, each entry's sigil and codepoint equal
`base_codepoint + original_index` (indices are positions in the input list,
so gaps from skipped malformed entries are preserved), and looking up an
entry's sigil through the derived first-match sigil index returns that
entry's word. -/
theorem C6_sigil_assignment_invariants (crcT : List Nat → Nat)
    (L : List Sigil.RawEntry) (base cap : Nat) (h0 : L ≠ [])
    (hcap : L.length ≤ cap) :
    ∃ lex, Sigil.assign_sigils crcT L base cap = Except.ok lex
      ∧ (lex.entries.map (fun e => e.sigil)).Nodup
      ∧ (∀ e ∈ lex.entries, e.sigil = base + e.index
          ∧ e.codepoint = base + e.index)
      ∧ (∀ e ∈ lex.entries, ∃ raw, L.get? e.index = some raw
          ∧ Sigil.acceptedEntry raw = true
          ∧ e.word = Sigil.pyStrip raw.word)
      ∧ (∀ e ∈ lex.entries,
          (Sigil.lookup_by_sigil lex e.sigil).map (fun x => x.word)
            = some e.word) := by
  have hne : L.length ≠ 0 := fun h => h0 (List.length_eq_zero.1 h)
  have hloop := Sigil.assignLoop_enumFrom crcT base L 0 [] (by simp)
  have hpair := Sigil.sigilize_pairwise crcT base L 0
  refine ⟨⟨base, Sigil.sigilize crcT base (List.enumFrom 0 L)⟩, ?_, ?_, ?_, ?_, ?_⟩
  · simp only [Sigil.assign_sigils, if_neg hne]
    rw [if_neg (by omega)]
    rw [show L.enum = List.enumFrom 0 L from rfl, hloop]
    rfl
  · exact List.Pairwise.map (fun (e : Sigil.SigilEntry) => e.sigil)
      (fun a b hab => Nat.ne_of_lt hab) hpair
  · intro e he
    obtain ⟨_, _, h3, h4, _⟩ := Sigil.mem_sigilize_enumFrom crcT base L 0 e he
    exact ⟨h3, h4⟩
  · intro e he
    obtain ⟨_, _, _, _, raw, hget, hraw, hse⟩ :=
      Sigil.mem_sigilize_enumFrom crcT base L 0 e he
    refine ⟨raw, by simpa using hget, hraw, ?_⟩
    rw [hse]
    rfl
  · intro e he
    have hfind := Sigil.find?_self_of_pairwise _ hpair e he
    simp only [Sigil.lookup_by_sigil]
    rw [hfind]
    rfl

/-- Witness for C6 at a one-entry lexicon (word `"w"`, definition `"d"`,
glyphs `"g"`), base codepoint `0xE000` and capacity 6400. -/
theorem C6_sigil_assignment_witness :
    (([⟨[119], [100], [103], none, none, none, none⟩] : List Sigil.RawEntry) ≠ [])
    ∧ ([⟨[119], [100], [103], none, none, none, none⟩] : List Sigil.RawEntry).length ≤ 6400
    ∧ ∃ lex, Sigil.assign_sigils (fun _ => 0)
          [⟨[119], [100], [103], none, none, none, none⟩] 57344 6400 = Except.ok lex
        ∧ (lex.entries.map (fun e => e.sigil)).Nodup
        ∧ (∀ e ∈ lex.entries, e.sigil = 57344 + e.index
            ∧ e.codepoint = 57344 + e.index)
        ∧ (∀ e ∈ lex.entries, ∃ raw,
            ([⟨[119], [100], [103], none, none, none, none⟩] : List Sigil.RawEntry).get? e.index
              = some raw
            ∧ Sigil.acceptedEntry raw = true
            ∧ e.word = Sigil.pyStrip raw.word)
        ∧ (∀ e ∈ lex.entries,
            (Sigil.lookup_by_sigil lex e.sigil).map (fun x => x.word)
              = some e.word) :=
  ⟨by simp, by simp,
    C6_sigil_assignment_invariants (fun _ => 0)
      [⟨[119], [100], [103], none, none, none, none⟩] 57344 6400
      (by simp) (by simp)⟩

/-- Witness for C8 at a single block named `"a"` with payload `[1, 2, 3]`. -/
theorem C8_terminatorless_scan_witness :
    (∀ blk ∈ [(⟨[97], 0, [0, 0, 0, 0], [0, 0, 0, 0], [1, 2, 3]⟩ : Encap.Block)],
      Encap.wfBlock blk)
    ∧ (Encap.scanBlocks
          (([(⟨[97], 0, [0, 0, 0, 0], [0, 0, 0, 0], [1, 2, 3]⟩ : Encap.Block)].map
            Encap.encBlock).flatten) []
        = some ([(⟨[97], 0, [0, 0, 0, 0], [0, 0, 0, 0], [1, 2, 3]⟩ : Encap.Block)].map
            Encap.extractBlock)
      ∧ Encap.scanBlocks
          (([(⟨[97], 0, [0, 0, 0, 0], [0, 0, 0, 0], [1, 2, 3]⟩ : Encap.Block)].map
            Encap.encBlock).flatten ++ [0]) []
        = some ([(⟨[97], 0, [0, 0, 0, 0], [0, 0, 0, 0], [1, 2, 3]⟩ : Encap.Block)].map
            Encap.extractBlock)) :=
  ⟨by decide,
    C8_terminatorless_scan
      [(⟨[97], 0, [0, 0, 0, 0], [0, 0, 0, 0], [1, 2, 3]⟩ : Encap.Block)]
      (by decide)⟩
